import Mathlib

/-!
Verification of the concurrent host-liveness scanner in
Network Tools/Ping Sweep/ping-sweep.py.

The file embeds, in order:
* the probe primitive wrapper ping_host;
* the address-range logic: the Python stdlib network-host expansion
  (IPv4Network.hosts) that the source delegates to, get_ip_range, and the
  range-validation prologue of start_sweep;
* the bounded scheduler (ThreadPoolExecutor with MAX_WORKERS slots,
  futures consumed as they complete) as a small-step transition relation.
-/

namespace PingSweep

/-- Source line 9: MAX_WORKERS = 50. -/
def MAX_WORKERS : Nat := 50

/-- Outcome of one invocation of the external ping binary via
subprocess.run: either a process return code, or the invocation itself
raised an exception (missing binary, permission failure, ...). -/
inductive PingInvocation where
  | ret (returncode : Nat)
  | raised
deriving DecidableEq

/-- Source lines 11-23, ping_host: runs the external ping once and maps the
outcome to (ip, liveness). A zero return code means up; a raised exception
is caught by the bare except and reported as (ip, False). The count and
timeout parameters are passed through to the invocation. -/
def ping_host (runPing : Nat → Nat → Nat → PingInvocation)
    (ip : Nat) (count timeout : Nat) : Nat × Bool :=
  match runPing ip count timeout with
  | .ret rc => (ip, rc == 0)
  | .raised => (ip, false)

/-! ## Address-range resolution -/

/-- A parsed IPv4 network: base address text value and CIDR prefix length.
ip_network(subnet, strict=False) masks the host bits off the base. -/
structure IPNetwork where
  base : Nat
  prefixLen : Nat
deriving DecidableEq

/-- Number of addresses in the network block. -/
def IPNetwork.numAddresses (net : IPNetwork) : Nat :=
  2 ^ (32 - net.prefixLen)

/-- The network address: the base with host bits masked off
(strict=False behaviour of ip_network). -/
def IPNetwork.networkAddress (net : IPNetwork) : Nat :=
  net.base / net.numAddresses * net.numAddresses

/-- The broadcast address: last address of the block. -/
def IPNetwork.broadcastAddress (net : IPNetwork) : Nat :=
  net.networkAddress + net.numAddresses - 1

/-- Models Python ipaddress IPv4Network.hosts, which the source calls at
lines 35 and 46: all usable host addresses of the network. For prefix
length 32 it is the single address; for 31 both addresses; otherwise all
addresses strictly between the network and broadcast addresses, in
ascending order. -/
def IPNetwork.hosts (net : IPNetwork) : List Nat :=
  if net.prefixLen = 32 then [net.networkAddress]
  else if net.prefixLen = 31 then [net.networkAddress, net.networkAddress + 1]
  else (List.range (net.numAddresses - 2)).map (fun i => net.networkAddress + 1 + i)

/-- One optional bound field of the GUI, already stripped: the empty
string, a nonempty string that ip_address cannot parse, or a nonempty
string denoting an address. -/
inductive BoundInput where
  | empty
  | unparsable
  | addr (a : Nat)
deriving DecidableEq

/-- Python truthiness of the stripped entry text at line 42
(if start_ip and end_ip). -/
def BoundInput.isSupplied : BoundInput → Bool
  | .empty => false
  | _ => true

/-- ipaddress.ip_address applied to the bound text: an address, or an
exception (modelled as none) for empty or unparsable text. -/
def parse_ip : BoundInput → Option Nat
  | .addr a => some a
  | _ => none

/-- Source lines 30-37, get_ip_range: parse both bounds and keep the hosts
of the network lying in [start, end]; any exception (either bound failing
to parse) yields None. -/
def get_ip_range (start_ip end_ip : BoundInput) (net : IPNetwork) :
    Option (List Nat) :=
  match parse_ip start_ip, parse_ip end_ip with
  | some s, some e => some (net.hosts.filter fun ip => decide (s ≤ ip ∧ ip ≤ e))
  | _, _ => none

/-- The one error message the range prologue can raise (line 44). -/
def invalidRangeMsg : String := "Invalid IP range within subnet."

/-- Result of the validation prologue of start_sweep (lines 41-49):
either the sweep is rejected with an error dialog and no probe is ever
issued, or the scheduler is started on the given candidate list. -/
inductive SweepOutcome where
  | rejected (msg : String)
  | scanned (candidates : List Nat)
deriving DecidableEq

/-- Source lines 41-49 of start_sweep: with both bound fields nonempty the
range is get_ip_range, and a falsy result (None or the empty list) raises
ValueError("Invalid IP range within subnet."); otherwise the whole host
list of the subnet is scanned. -/
def start_sweep_candidates (net : IPNetwork) (start_ip end_ip : BoundInput) :
    SweepOutcome :=
  if start_ip.isSupplied && end_ip.isSupplied then
    match get_ip_range start_ip end_ip net with
    | some r => if r.isEmpty then .rejected invalidRangeMsg else .scanned r
    | none => .rejected invalidRangeMsg
  else .scanned net.hosts

/-! ## The bounded scheduler

Source lines 58-67: all candidates are submitted to a
ThreadPoolExecutor(max_workers=MAX_WORKERS) and consumed with
as_completed. The executor starts the submitted tasks in FIFO order and
never runs more than its worker budget at once; the consuming loop appends
one result per future in completion order. This is modelled as a
transition relation on scheduler states. -/

/-- One recorded probe verdict: (address, up). -/
structure ProbeResult where
  addr : Nat
  up : Bool
deriving DecidableEq

/-- Scheduler state: queue of submitted-but-unstarted candidates (in
submission order), addresses whose probe is currently in flight, and the
verdicts recorded so far in completion order. -/
structure SchedState where
  queue : List Nat
  inFlight : List Nat
  done : List ProbeResult
deriving DecidableEq

/-- Initial scheduler state: every candidate submitted, nothing running,
nothing recorded. -/
def initState (cands : List Nat) : SchedState :=
  ⟨cands, [], []⟩

/-- The scheduler transitions. start: a pool slot picks up the next queued
candidate, only when fewer than the worker budget are in flight. finish:
any in-flight probe completes and its verdict is appended to the results
(as_completed delivers verdicts in completion order, which is arbitrary
relative to submission order). -/
inductive Step (budget : Nat) (probe : Nat → Bool) :
    SchedState → SchedState → Prop where
  | start (c : Nat) (rest inF : List Nat) (d : List ProbeResult) :
      inF.length < budget →
      Step budget probe ⟨c :: rest, inF, d⟩ ⟨rest, inF ++ [c], d⟩
  | finish (q pre post : List Nat) (c : Nat) (d : List ProbeResult) :
      Step budget probe ⟨q, pre ++ c :: post, d⟩
        ⟨q, pre ++ post, d ++ [⟨c, probe c⟩]⟩

/-- Reachability along scheduler transitions. -/
def Reachable (budget : Nat) (probe : Nat → Bool) :
    SchedState → SchedState → Prop :=
  Relation.ReflTransGen (Step budget probe)

/-- A state from which no transition is possible: the scan has returned. -/
def Terminal (budget : Nat) (probe : Nat → Bool) (s : SchedState) : Prop :=
  ∀ t, ¬ Step budget probe s t

/-- All candidate addresses a state accounts for: unstarted, in flight,
or recorded. -/
def stateAddrs (s : SchedState) : List Nat :=
  s.queue ++ s.inFlight ++ s.done.map ProbeResult.addr

/-- Concrete fixture: the network 10.0.0.0/24 (base 10 * 2 ^ 24). -/
def net24 : IPNetwork := ⟨167772160, 24⟩

/-- Concrete fixture: the network 192.168.1.0/30. -/
def net30 : IPNetwork := ⟨3232235776, 30⟩

/-- Concrete probe stub: every host answers. -/
def probeAllUp : Nat → Bool := fun _ => true

/-- Concrete probe stub: no host answers. -/
def probeAllDown : Nat → Bool := fun _ => false

/-- Concrete external-ping stub whose invocation always raises. -/
def pingAlwaysRaises : Nat → Nat → Nat → PingInvocation := fun _ _ _ => .raised

/-! ### Scheduler invariants -/

theorem step_inFlight_le {budget : Nat} {probe : Nat → Bool}
    {s t : SchedState} (h : Step budget probe s t)
    (hs : s.inFlight.length ≤ budget) : t.inFlight.length ≤ budget := by
  cases h with
  | start c rest inF d hlt =>
      simpa using hlt
  | finish q pre post c d =>
      simp only [List.length_append, List.length_cons] at hs ⊢
      omega

theorem reachable_inFlight_le {budget : Nat} {probe : Nat → Bool}
    {cands : List Nat} {s : SchedState}
    (h : Reachable budget probe (initState cands) s) :
    s.inFlight.length ≤ budget := by
  induction h with
  | refl => simp [initState]
  | tail _ hstep ih => exact step_inFlight_le hstep ih

theorem step_stateAddrs_perm {budget : Nat} {probe : Nat → Bool}
    {s t : SchedState} (h : Step budget probe s t) :
    (stateAddrs t).Perm (stateAddrs s) := by
  cases h with
  | start c rest inF d hlt =>
      refine List.perm_iff_count.mpr fun a => ?_
      simp only [stateAddrs, List.count_append, List.count_cons,
        List.count_singleton, List.count_nil]
      split <;> omega
  | finish q pre post c d =>
      refine List.perm_iff_count.mpr fun a => ?_
      simp only [stateAddrs, List.map_append, List.map_cons,
        List.count_append, List.count_cons, List.count_singleton,
        List.map_nil, List.count_nil]
      split <;> omega

theorem reachable_stateAddrs_perm {budget : Nat} {probe : Nat → Bool}
    {cands : List Nat} {s : SchedState}
    (h : Reachable budget probe (initState cands) s) :
    (stateAddrs s).Perm cands := by
  induction h with
  | refl => simp [initState, stateAddrs]
  | tail _ hstep ih => exact (step_stateAddrs_perm hstep).trans ih

theorem reachable_done_verdicts {budget : Nat} {probe : Nat → Bool}
    {cands : List Nat} {s : SchedState}
    (h : Reachable budget probe (initState cands) s) :
    ∀ r ∈ s.done, r.up = probe r.addr := by
  induction h with
  | refl => simp [initState]
  | tail _ hstep ih =>
      cases hstep with
      | start c rest inF d hlt => exact ih
      | finish q pre post c d =>
          intro r hr
          rcases List.mem_append.mp hr with hr | hr
          · exact ih r hr
          · rcases List.mem_singleton.mp hr with rfl
            rfl

theorem step_source_not_drained {budget : Nat} {probe : Nat → Bool}
    {s t : SchedState} (h : Step budget probe s t) :
    s.queue ≠ [] ∨ s.inFlight ≠ [] := by
  cases h with
  | start c rest inF d hlt => left; simp
  | finish q pre post c d => right; simp

theorem terminal_of_drained {budget : Nat} {probe : Nat → Bool}
    {s : SchedState} (hq : s.queue = []) (hf : s.inFlight = []) :
    Terminal budget probe s := fun _ hstep =>
  (step_source_not_drained hstep).elim (fun h => h hq) (fun h => h hf)

theorem terminal_drained {budget : Nat} {probe : Nat → Bool}
    {s : SchedState} (hb : 1 ≤ budget) (ht : Terminal budget probe s) :
    s.queue = [] ∧ s.inFlight = [] := by
  obtain ⟨q, inF, d⟩ := s
  have hf : inF = [] := by
    cases inF with
    | nil => rfl
    | cons c0 rest0 => exact absurd (Step.finish q [] rest0 c0 d) (ht _)
  subst hf
  have hq : q = [] := by
    cases q with
    | nil => rfl
    | cons c rest => exact absurd (Step.start c rest [] d hb) (ht _)
  exact ⟨hq, rfl⟩

/-! ### Host-list lemmas -/

theorem hosts_of_many {net : IPNetwork} (h2 : 2 < net.numAddresses) :
    net.hosts = (List.range (net.numAddresses - 2)).map
      (fun i => net.networkAddress + 1 + i) := by
  have h32 : net.prefixLen ≠ 32 := by
    intro h
    simp only [IPNetwork.numAddresses, h] at h2
    norm_num at h2
  have h31 : net.prefixLen ≠ 31 := by
    intro h
    simp only [IPNetwork.numAddresses, h] at h2
    norm_num at h2
  rw [IPNetwork.hosts, if_neg h32, if_neg h31]

theorem mem_hosts_many {net : IPNetwork} (h2 : 2 < net.numAddresses) (a : Nat) :
    a ∈ net.hosts ↔
      net.networkAddress + 1 ≤ a ∧ a ≤ net.broadcastAddress - 1 := by
  have hbc : net.broadcastAddress = net.networkAddress + net.numAddresses - 1 :=
    rfl
  rw [hosts_of_many h2, hbc]
  simp only [List.mem_map, List.mem_range]
  constructor
  · rintro ⟨i, hi, rfl⟩
    omega
  · rintro ⟨hl, hu⟩
    exact ⟨a - (net.networkAddress + 1), by omega, by omega⟩

theorem hosts_sorted (net : IPNetwork) : List.Sorted (· < ·) net.hosts := by
  rw [IPNetwork.hosts]
  split
  · simp
  · split
    · simp
    · refine List.Pairwise.map _ (fun hab => ?_) (List.pairwise_lt_range _)
      omega

/-! ## Claims about the scheduler -/

/-- C1: for every candidate sequence and every scan invocation, the number
of probes in flight simultaneously never exceeds the worker budget at any
instant during the scan; the default budget MAX_WORKERS is 50. -/
theorem C1_inflight_never_exceeds_budget (budget : Nat) (probe : Nat → Bool)
    (cands : List Nat) (s : SchedState)
    (h : Reachable budget probe (initState cands) s) :
    s.inFlight.length ≤ budget ∧ MAX_WORKERS = 50 :=
  ⟨reachable_inFlight_le h, rfl⟩

theorem C1_witness :
    Reachable 1 probeAllUp (initState [1, 2]) ⟨[2], [1], []⟩ ∧
    (SchedState.mk [2] [1] []).inFlight.length ≤ 1 :=
  have hr : Reachable 1 probeAllUp (initState [1, 2]) ⟨[2], [1], []⟩ :=
    Relation.ReflTransGen.single (Step.start 1 [2] [] [] (by decide))
  ⟨hr, (C1_inflight_never_exceeds_budget 1 probeAllUp [1, 2] _ hr).1⟩

/-- C2: for every candidate sequence, a scan run to a terminal state (the
only way start_sweep returns) has recorded exactly one ProbeResult per
candidate occurrence; there is no early-exit path that skips remaining
candidates. -/
theorem C2_one_result_per_candidate (budget : Nat) (probe : Nat → Bool)
    (cands : List Nat) (s : SchedState) (hb : 1 ≤ budget)
    (hr : Reachable budget probe (initState cands) s)
    (ht : Terminal budget probe s) :
    s.done.length = cands.length ∧
    ∀ a, (s.done.map ProbeResult.addr).count a = cands.count a := by
  obtain ⟨hq, hf⟩ := terminal_drained hb ht
  have hperm : (stateAddrs s).Perm cands := reachable_stateAddrs_perm hr
  rw [stateAddrs, hq, hf] at hperm
  simp only [List.nil_append] at hperm
  refine ⟨?_, fun a => hperm.count_eq a⟩
  have := hperm.length_eq
  simpa using this

theorem C2_witness :
    (1 ≤ 1) ∧
    Reachable 1 probeAllUp (initState [5, 6]) ⟨[], [], [⟨5, true⟩, ⟨6, true⟩]⟩ ∧
    Terminal 1 probeAllUp ⟨[], [], [⟨5, true⟩, ⟨6, true⟩]⟩ ∧
    (SchedState.mk [] [] [⟨5, true⟩, ⟨6, true⟩]).done.length =
      ([5, 6] : List Nat).length :=
  have h1 : Step 1 probeAllUp ⟨[5, 6], [], []⟩ ⟨[6], [5], []⟩ :=
    Step.start 5 [6] [] [] (by decide)
  have h2 : Step 1 probeAllUp ⟨[6], [5], []⟩ ⟨[6], [], [⟨5, true⟩]⟩ :=
    Step.finish [6] [] [] 5 []
  have h3 : Step 1 probeAllUp ⟨[6], [], [⟨5, true⟩]⟩ ⟨[], [6], [⟨5, true⟩]⟩ :=
    Step.start 6 [] [] [⟨5, true⟩] (by decide)
  have h4 : Step 1 probeAllUp ⟨[], [6], [⟨5, true⟩]⟩
      ⟨[], [], [⟨5, true⟩, ⟨6, true⟩]⟩ :=
    Step.finish [] [] [] 6 [⟨5, true⟩]
  have hr : Reachable 1 probeAllUp (initState [5, 6])
      ⟨[], [], [⟨5, true⟩, ⟨6, true⟩]⟩ :=
    ((((Relation.ReflTransGen.refl).tail h1).tail h2).tail h3).tail h4
  have ht : Terminal 1 probeAllUp ⟨[], [], [⟨5, true⟩, ⟨6, true⟩]⟩ :=
    terminal_of_drained rfl rfl
  ⟨le_refl 1, hr, ht,
    (C2_one_result_per_candidate 1 probeAllUp [5, 6] _ (le_refl 1) hr ht).1⟩

/-- C3: when the external probe primitive raises instead of returning,
ping_host yields the verdict down for that candidate, the recorded verdict
for that candidate in any scan is down, and the scan still reaches a
complete report covering every candidate (no scan-level failure). -/
theorem C3_invocation_failure_is_down
    (runPing : Nat → Nat → Nat → PingInvocation) (count timeout : Nat)
    (c : Nat) (budget : Nat) (cands : List Nat) (s : SchedState)
    (hb : 1 ≤ budget) (hfail : runPing c count timeout = .raised)
    (hr : Reachable budget (fun a => (ping_host runPing a count timeout).2)
      (initState cands) s) :
    ping_host runPing c count timeout = (c, false) ∧
    (∀ r ∈ s.done, r.addr = c → r.up = false) ∧
    (Terminal budget (fun a => (ping_host runPing a count timeout).2) s →
      s.done.length = cands.length) := by
  have hdown : ping_host runPing c count timeout = (c, false) := by
    unfold ping_host
    rw [hfail]
  refine ⟨hdown, ?_, ?_⟩
  · intro r hrd hrc
    have hv := reachable_done_verdicts hr r hrd
    simp only [hv, hrc, hdown]
  · intro ht
    obtain ⟨hq, hf⟩ := terminal_drained hb ht
    have hperm := reachable_stateAddrs_perm hr
    rw [stateAddrs, hq, hf] at hperm
    simpa using hperm.length_eq

theorem C3_witness :
    (1 ≤ 1) ∧ pingAlwaysRaises 7 1 1000 = .raised ∧
    Reachable 1 (fun a => (ping_host pingAlwaysRaises a 1 1000).2)
      (initState [7]) ⟨[], [], [⟨7, false⟩]⟩ ∧
    ping_host pingAlwaysRaises 7 1 1000 = (7, false) :=
  have h1 : Step 1 (fun a => (ping_host pingAlwaysRaises a 1 1000).2)
      ⟨[7], [], []⟩ ⟨[], [7], []⟩ :=
    Step.start 7 [] [] [] (by decide)
  have h2 : Step 1 (fun a => (ping_host pingAlwaysRaises a 1 1000).2)
      ⟨[], [7], []⟩ ⟨[], [], [⟨7, false⟩]⟩ :=
    Step.finish [] [] [] 7 []
  have hr : Reachable 1 (fun a => (ping_host pingAlwaysRaises a 1 1000).2)
      (initState [7]) ⟨[], [], [⟨7, false⟩]⟩ :=
    ((Relation.ReflTransGen.refl).tail h1).tail h2
  ⟨le_refl 1, rfl, hr,
    (C3_invocation_failure_is_down pingAlwaysRaises 1 1000 7 1 [7] _
      (le_refl 1) rfl hr).1⟩

/-- C9 counterexample: in the concrete scenario of the claim (10
candidates under the default budget), no reachable terminal state of the
scan records exactly 3 ProbeResults: the embedded scheduler has no
cancellation transition, so a scan never returns a 3-result partial
report. -/
theorem C9_counterexample :
    ¬ ∃ s : SchedState,
      Reachable MAX_WORKERS probeAllUp
        (initState [1, 2, 3, 4, 5, 6, 7, 8, 9, 10]) s ∧
      Terminal MAX_WORKERS probeAllUp s ∧ s.done.length = 3 := by
  rintro ⟨s, hr, ht, h3⟩
  obtain ⟨hq, hf⟩ := terminal_drained (by decide) ht
  have hperm := reachable_stateAddrs_perm hr
  rw [stateAddrs, hq, hf] at hperm
  have hlen := hperm.length_eq
  simp at hlen
  omega

/-- C9 amended: the code offers no cancellation; once started, a scan
returns only from a terminal state, in which the work queue is drained, no
probe is in flight, and the report records one verdict per candidate, so
no partial or incomplete report is ever produced. -/
theorem C9_no_cancellation (budget : Nat) (probe : Nat → Bool)
    (cands : List Nat) (s : SchedState) (hb : 1 ≤ budget)
    (hr : Reachable budget probe (initState cands) s)
    (ht : Terminal budget probe s) :
    s.queue = [] ∧ s.inFlight = [] ∧ s.done.length = cands.length := by
  obtain ⟨hq, hf⟩ := terminal_drained hb ht
  have hperm := reachable_stateAddrs_perm hr
  rw [stateAddrs, hq, hf] at hperm
  refine ⟨hq, hf, ?_⟩
  simpa using hperm.length_eq

theorem C9_witness :
    (1 ≤ 2) ∧
    Reachable 2 probeAllDown (initState [3]) ⟨[], [], [⟨3, false⟩]⟩ ∧
    Terminal 2 probeAllDown ⟨[], [], [⟨3, false⟩]⟩ ∧
    (SchedState.mk [] [] [⟨3, false⟩]).done.length = ([3] : List Nat).length :=
  have h1 : Step 2 probeAllDown ⟨[3], [], []⟩ ⟨[], [3], []⟩ :=
    Step.start 3 [] [] [] (by decide)
  have h2 : Step 2 probeAllDown ⟨[], [3], []⟩ ⟨[], [], [⟨3, false⟩]⟩ :=
    Step.finish [] [] [] 3 []
  have hr : Reachable 2 probeAllDown (initState [3]) ⟨[], [], [⟨3, false⟩]⟩ :=
    ((Relation.ReflTransGen.refl).tail h1).tail h2
  have ht : Terminal 2 probeAllDown ⟨[], [], [⟨3, false⟩]⟩ :=
    terminal_of_drained rfl rfl
  ⟨by decide, hr, ht,
    (C9_no_cancellation 2 probeAllDown [3] _ (by decide) hr ht).2.2⟩

/-! ## Claims about range resolution -/

/-- C4: with no bound pair, resolution scans every usable host of the
network: for networks with more than two addresses the network and
broadcast addresses are excluded and the count is the address count minus
two; for one- or two-address networks every address of the block is
included. -/
theorem C4_resolve_unbounded (net : IPNetwork) (hp : net.prefixLen ≤ 32) :
    start_sweep_candidates net .empty .empty = .scanned net.hosts ∧
    (2 < net.numAddresses →
      net.hosts.length = net.numAddresses - 2 ∧
      net.networkAddress ∉ net.hosts ∧
      net.broadcastAddress ∉ net.hosts ∧
      ∀ a, a ∈ net.hosts ↔
        net.networkAddress + 1 ≤ a ∧ a ≤ net.broadcastAddress - 1) ∧
    (net.numAddresses ≤ 2 →
      net.hosts.length = net.numAddresses ∧
      ∀ a, a ∈ net.hosts ↔
        net.networkAddress ≤ a ∧ a ≤ net.broadcastAddress) := by
  have hbc : net.broadcastAddress = net.networkAddress + net.numAddresses - 1 :=
    rfl
  refine ⟨rfl, fun h2 => ?_, fun hle => ?_⟩
  · refine ⟨?_, ?_, ?_, mem_hosts_many h2⟩
    · rw [hosts_of_many h2]
      simp
    · rw [mem_hosts_many h2, hbc]
      omega
    · rw [mem_hosts_many h2, hbc]
      omega
  · have hp' : net.prefixLen = 31 ∨ net.prefixLen = 32 := by
      by_contra hcon
      push_neg at hcon
      obtain ⟨h31, h32⟩ := hcon
      have hge : 2 ≤ 32 - net.prefixLen := by omega
      have : 2 ^ 2 ≤ 2 ^ (32 - net.prefixLen) :=
        Nat.pow_le_pow_right (by norm_num) hge
      have : 4 ≤ net.numAddresses := this
      omega
    rcases hp' with h | h
    · have hh : net.hosts = [net.networkAddress, net.networkAddress + 1] := by
        rw [IPNetwork.hosts, if_neg (by omega), if_pos h]
      have hN : net.numAddresses = 2 := by
        simp [IPNetwork.numAddresses, h]
      refine ⟨by simp [hh, hN], fun a => ?_⟩
      rw [hh, hbc, hN]
      simp only [List.mem_cons, List.mem_singleton, List.not_mem_nil, or_false]
      omega
    · have hh : net.hosts = [net.networkAddress] := by
        rw [IPNetwork.hosts, if_pos h]
      have hN : net.numAddresses = 1 := by
        simp [IPNetwork.numAddresses, h]
      refine ⟨by simp [hh, hN], fun a => ?_⟩
      rw [hh, hbc, hN]
      simp only [List.mem_singleton]
      omega

theorem C4_witness :
    net30.prefixLen ≤ 32 ∧
    start_sweep_candidates net30 .empty .empty = .scanned net30.hosts ∧
    net30.hosts = [3232235777, 3232235778] :=
  ⟨by decide, (C4_resolve_unbounded net30 (by decide)).1, by decide⟩

/-- Bridge: with at least one bound field empty the full host list is
scanned. -/
theorem start_sweep_candidates_of_not_supplied (net : IPNetwork)
    (s e : BoundInput) (hne : (s.isSupplied && e.isSupplied) = false) :
    start_sweep_candidates net s e = .scanned net.hosts := by
  unfold start_sweep_candidates
  rw [hne]
  rfl

/-- Bridge: both bounds parse, so the sweep scans the hosts inside the
bound interval, or is rejected when none lies inside. -/
theorem start_sweep_candidates_addr (net : IPNetwork) (a b : Nat) :
    start_sweep_candidates net (.addr a) (.addr b) =
      if (net.hosts.filter fun ip => decide (a ≤ ip ∧ ip ≤ b)).isEmpty
      then .rejected invalidRangeMsg
      else .scanned (net.hosts.filter fun ip => decide (a ≤ ip ∧ ip ≤ b)) :=
  rfl

/-- Bridge: an unparsable left bound is rejected whenever the right field
is also nonempty. -/
theorem start_sweep_candidates_unparsable_left (net : IPNetwork)
    (e : BoundInput) :
    start_sweep_candidates net .unparsable e =
      if e.isSupplied then .rejected invalidRangeMsg
      else .scanned net.hosts := by
  cases e <;> rfl

/-- Bridge: an unparsable right bound is rejected whenever the left field
is also nonempty. -/
theorem start_sweep_candidates_unparsable_right (net : IPNetwork)
    (s : BoundInput) :
    start_sweep_candidates net s .unparsable =
      if s.isSupplied then .rejected invalidRangeMsg
      else .scanned net.hosts := by
  cases s <;> rfl

theorem parse_ip_some {s : BoundInput} {a : Nat} (h : parse_ip s = some a) :
    s = .addr a := by
  cases s with
  | empty => simp [parse_ip] at h
  | unparsable => simp [parse_ip] at h
  | addr x =>
      simp only [parse_ip, Option.some.injEq] at h
      rw [h]

theorem parse_ip_none {s : BoundInput} (h : parse_ip s = none)
    (hs : s.isSupplied = true) : s = .unparsable := by
  cases s with
  | empty => simp [BoundInput.isSupplied] at hs
  | unparsable => rfl
  | addr x => simp [parse_ip] at h

/-- C5: with both bound fields supplied, if either bound fails to parse or
start is greater than end, the sweep is rejected with the validation error
before any probing starts (a rejected outcome never reaches the
scheduler). -/
theorem C5_invalid_bounds_rejected (net : IPNetwork) (s e : BoundInput)
    (hs : s.isSupplied = true) (he : e.isSupplied = true)
    (hbad : parse_ip s = none ∨ parse_ip e = none ∨
      ∃ a b, parse_ip s = some a ∧ parse_ip e = some b ∧ b < a) :
    start_sweep_candidates net s e = .rejected invalidRangeMsg := by
  rcases hbad with h | h | ⟨a, b, ha, hb, hlt⟩
  · obtain rfl := parse_ip_none h hs
    rw [start_sweep_candidates_unparsable_left, if_pos he]
  · obtain rfl := parse_ip_none h he
    rw [start_sweep_candidates_unparsable_right, if_pos hs]
  · obtain rfl := parse_ip_some ha
    obtain rfl := parse_ip_some hb
    have hnil : net.hosts.filter (fun ip => decide (a ≤ ip ∧ ip ≤ b)) = [] := by
      rw [List.filter_eq_nil_iff]
      intro x hx
      simp only [decide_eq_true_eq, not_and, not_le]
      intro hax
      omega
    rw [start_sweep_candidates_addr, hnil]
    rfl

theorem C5_witness :
    (BoundInput.addr 167772410).isSupplied = true ∧
    (∃ a b, parse_ip (.addr 167772410) = some a ∧
      parse_ip (.addr 167772165) = some b ∧ b < a) ∧
    start_sweep_candidates net24 (.addr 167772410) (.addr 167772165) =
      .rejected invalidRangeMsg :=
  ⟨rfl, ⟨167772410, 167772165, rfl, rfl, by decide⟩,
    C5_invalid_bounds_rejected net24 (.addr 167772410) (.addr 167772165)
      rfl rfl (Or.inr (Or.inr ⟨167772410, 167772165, rfl, rfl, by decide⟩))⟩

set_option maxRecDepth 10000 in
/-- C6 counterexample: a bound pair that excludes every host of
10.0.0.0/24 (both bounds equal to the broadcast address 10.0.0.255) is
rejected with exactly the same error value as a reversed bound pair, so
the two failure modes are not distinguishable by the caller. -/
theorem C6_counterexample :
    start_sweep_candidates net24 (.addr 167772415) (.addr 167772415) =
      .rejected invalidRangeMsg ∧
    start_sweep_candidates net24 (.addr 167772410) (.addr 167772165) =
      .rejected invalidRangeMsg := by
  constructor <;> decide

/-- C6 amended: for every bounded spec whose bound interval excludes every
usable host, the sweep is rejected (it does not silently scan an empty
candidate list), but with the same generic validation error used for
unparsable or reversed bounds, not a distinct EmptyRange error. -/
theorem C6_empty_range_rejected (net : IPNetwork) (s e : BoundInput)
    (a b : Nat) (hs : s.isSupplied = true) (he : e.isSupplied = true)
    (ha : parse_ip s = some a) (hb : parse_ip e = some b)
    (hempty : ∀ ip ∈ net.hosts, ¬(a ≤ ip ∧ ip ≤ b)) :
    start_sweep_candidates net s e = .rejected invalidRangeMsg := by
  obtain rfl := parse_ip_some ha
  obtain rfl := parse_ip_some hb
  have hnil : net.hosts.filter (fun ip => decide (a ≤ ip ∧ ip ≤ b)) = [] := by
    rw [List.filter_eq_nil_iff]
    intro x hx
    simpa using hempty x hx
  rw [start_sweep_candidates_addr, hnil]
  rfl

set_option maxRecDepth 10000 in
theorem C6_witness :
    (BoundInput.addr 167772415).isSupplied = true ∧
    parse_ip (.addr 167772415) = some 167772415 ∧
    (∀ ip ∈ net24.hosts, ¬(167772415 ≤ ip ∧ ip ≤ 167772415)) ∧
    start_sweep_candidates net24 (.addr 167772415) (.addr 167772415) =
      .rejected invalidRangeMsg :=
  ⟨rfl, rfl, by decide,
    C6_empty_range_rejected net24 (.addr 167772415) (.addr 167772415)
      167772415 167772415 rfl rfl rfl rfl (by decide)⟩

set_option maxRecDepth 10000 in
/-- C7 counterexample: for 10.0.0.0/24 with start bound 9.255.255.156
(numerically 167772060, outside the network host range) and end bound
10.0.0.5, the sweep is not rejected: it proceeds and probes the hosts
10.0.0.1 through 10.0.0.5. -/
theorem C7_counterexample :
    167772060 < net24.networkAddress + 1 ∧
    start_sweep_candidates net24 (.addr 167772060) (.addr 167772165) =
      .scanned [167772161, 167772162, 167772163, 167772164, 167772165] := by
  constructor <;> decide

/-- C7 amended: a bound lying outside the network host range does not by
itself cause rejection; the bound interval is intersected with the host
list, the sweep is rejected only when that intersection is empty, and
otherwise scanning proceeds over exactly the in-range hosts. -/
theorem C7_bounds_clipped (net : IPNetwork) (s e : BoundInput) (a b : Nat)
    (hs : s.isSupplied = true) (he : e.isSupplied = true)
    (ha : parse_ip s = some a) (hb : parse_ip e = some b)
    (hsome : ∃ ip ∈ net.hosts, a ≤ ip ∧ ip ≤ b) :
    ∃ r, start_sweep_candidates net s e = .scanned r ∧ r ≠ [] ∧
      ∀ ip, ip ∈ r ↔ ip ∈ net.hosts ∧ a ≤ ip ∧ ip ≤ b := by
  obtain rfl := parse_ip_some ha
  obtain rfl := parse_ip_some hb
  obtain ⟨w, hw, hwab⟩ := hsome
  have hmem : w ∈ net.hosts.filter (fun ip => decide (a ≤ ip ∧ ip ≤ b)) :=
    List.mem_filter.mpr ⟨hw, by simpa using hwab⟩
  have hne : net.hosts.filter (fun ip => decide (a ≤ ip ∧ ip ≤ b)) ≠ [] :=
    List.ne_nil_of_mem hmem
  refine ⟨net.hosts.filter (fun ip => decide (a ≤ ip ∧ ip ≤ b)), ?_, hne, ?_⟩
  · rw [start_sweep_candidates_addr, if_neg]
    rw [List.isEmpty_iff]
    exact hne
  · intro ip
    rw [List.mem_filter]
    simp

set_option maxRecDepth 10000 in
theorem C7_witness :
    (BoundInput.addr 167772060).isSupplied = true ∧
    (∃ ip ∈ net24.hosts, 167772060 ≤ ip ∧ ip ≤ 167772165) ∧
    ∃ r, start_sweep_candidates net24 (.addr 167772060) (.addr 167772165) =
      .scanned r ∧ r ≠ [] ∧
      ∀ ip, ip ∈ r ↔ ip ∈ net24.hosts ∧ 167772060 ≤ ip ∧ ip ≤ 167772165 :=
  ⟨rfl, ⟨167772161, by decide, by decide, by decide⟩,
    C7_bounds_clipped net24 (.addr 167772060) (.addr 167772165)
      167772060 167772165 rfl rfl rfl rfl
      ⟨167772161, by decide, by decide, by decide⟩⟩

/-- C8: whenever the sweep actually scans a candidate list, bounded or
not, that list is strictly ascending by numeric address value and
duplicate-free. -/
theorem C8_output_sorted_nodup (net : IPNetwork) (s e : BoundInput)
    (r : List Nat) (h : start_sweep_candidates net s e = .scanned r) :
    List.Sorted (· < ·) r ∧ r.Nodup := by
  have hsorted : List.Sorted (· < ·) r := by
    cases s with
    | empty =>
        rw [start_sweep_candidates_of_not_supplied net .empty e rfl] at h
        injection h with hh
        subst hh
        exact hosts_sorted net
    | unparsable =>
        rw [start_sweep_candidates_unparsable_left] at h
        split at h
        · cases h
        · injection h with hh
          subst hh
          exact hosts_sorted net
    | addr a =>
        cases e with
        | empty =>
            rw [start_sweep_candidates_of_not_supplied net (.addr a) .empty
              rfl] at h
            injection h with hh
            subst hh
            exact hosts_sorted net
        | unparsable =>
            rw [start_sweep_candidates_unparsable_right] at h
            split at h
            · cases h
            · injection h with hh
              subst hh
              exact hosts_sorted net
        | addr b =>
            rw [start_sweep_candidates_addr] at h
            split at h
            · cases h
            · injection h with hh
              subst hh
              exact (hosts_sorted net).filter _
  exact ⟨hsorted, hsorted.nodup⟩

theorem C8_witness :
    start_sweep_candidates net30 .empty .empty =
      .scanned [3232235777, 3232235778] ∧
    List.Sorted (· < ·) [3232235777, 3232235778] ∧
    List.Nodup [3232235777, 3232235778] :=
  have h : start_sweep_candidates net30 .empty .empty =
      .scanned [3232235777, 3232235778] := by decide
  ⟨h, C8_output_sorted_nodup net30 .empty .empty _ h⟩

/-- C10: if at most one of the two optional bound fields is nonempty, the
supplied bound is silently ignored and the sweep covers the full host list
of the network, exactly as when no bound is given. -/
theorem C10_single_bound_ignored (net : IPNetwork) (s e : BoundInput)
    (h : s = .empty ∨ e = .empty) :
    start_sweep_candidates net s e = .scanned net.hosts ∧
    start_sweep_candidates net s e =
      start_sweep_candidates net .empty .empty := by
  have hcond : (s.isSupplied && e.isSupplied) = false := by
    rcases h with rfl | rfl
    · rfl
    · simp [BoundInput.isSupplied]
  constructor
  · unfold start_sweep_candidates
    rw [hcond]
    rfl
  · unfold start_sweep_candidates
    rw [hcond]
    rfl

theorem C10_witness :
    ((BoundInput.addr 167772161) = .empty ∨ (BoundInput.empty : BoundInput) = .empty) ∧
    start_sweep_candidates net24 (.addr 167772161) .empty =
      .scanned net24.hosts ∧
    start_sweep_candidates net24 (.addr 167772161) .empty =
      start_sweep_candidates net24 .empty .empty :=
  ⟨Or.inr rfl, C10_single_bound_ignored net24 (.addr 167772161) .empty (Or.inr rfl)⟩

end PingSweep
